import Mathlib

/-!
Verification development for the `symlark` reconciliation tool
(`src/symlark/symlark.py`).

The Python module walks a "working" (GWS) directory tree and an "archive"
tree, discovers versioned dataset directories (`v` + 8 characters), and for
each working version decides — against the archive's `latest` pointer —
whether to delete it and replace it with a symlink into the archive, to
deduplicate it after a content comparison, or to leave it alone and report.

This file shallowly embeds the module over an explicit filesystem model:
* a filesystem is a finite association list from absolute paths
  (component lists) to nodes (file with byte content, directory, symlink);
* `canon` performs symlink-following path resolution with fuel
  (as the kernel does, with an ELOOP-style bound);
* each `os` / `pathlib` primitive the source uses is given its POSIX
  semantics (`os.remove` fails on directories, `os.rmdir` fails on
  symlinks and non-empty directories, `os.symlink` fails if the link name
  exists, `os.listdir`/`os.path.isdir` follow symlinks, `Path.is_symlink`
  and `Path.readlink` do not follow the final component, ...);
* fallible Python code (uncaught exceptions) is modelled with
  `Option`/`Except` results, and the mutating engine threads the
  filesystem state explicitly together with a trace of performed actions;
* the MD5 digest is modelled as a collision-free digest of the byte
  content (digest equality iff content equality).

Definitions keep the source's names (`nested_list`, `dirs_match`,
`delete_dir`, `find_versions`, `identify_dirs`, `ArchiveDir`, `main`)
and are translated line by line from the source, including its faithful
quirks: `dirs_match` iterates over the *characters* of its first argument
(`for i in d1:`), `nested_list` drops `remove_base` in recursive calls,
`str.replace` replaces every occurrence, and `ArchiveDir._check_valid`
indexes `self.versions[-1]` without an emptiness guard.
-/

set_option autoImplicit false

/-- A filesystem node: a regular file with byte content, a directory, or a
symbolic link holding its (uninterpreted) target string. -/
inductive Node where
  | file (content : List Nat)
  | dir
  | symlink (target : String)
  deriving DecidableEq, Repr

/-- Path components of an absolute path (no empty components). -/
abbrev Comps := List String

/-- A filesystem: a finite association list from absolute canonical paths
(component lists) to nodes. -/
abbrev FS := List (Comps × Node)

/-- Observable actions performed (or reported) by the engine. -/
inductive Act where
  | deleteFile (p : String)
  | rmdirA (p : String)
  | symlinkA (target link : String)
  | compare (a b : String)
  | report (tag : String)
  deriving DecidableEq, Repr

deriving instance DecidableEq for Except

/-- Split a character list into segments at `'/'` characters. -/
def splitSeg : List Char → List (List Char)
  | [] => [[]]
  | c :: rest =>
    if c = '/' then [] :: splitSeg rest
    else
      match splitSeg rest with
      | s :: ss => (c :: s) :: ss
      | [] => [[c]]

/-- Path-string to components: split at `'/'`, dropping empty segments. -/
def splitPath (s : String) : Comps :=
  ((splitSeg s.data).filter (fun seg => seg ≠ [])).map (fun seg => String.mk seg)

/-- Whether a string starts with `/`. -/
def headIsSlash (s : String) : Bool :=
  match s.data with
  | '/' :: _ => true
  | _ => false

/-- Whether a string ends with `/`. -/
def lastIsSlash (s : String) : Bool :=
  match s.data.getLast? with
  | some '/' => true
  | _ => false

/-- Python `os.path.join` for two operands (POSIX): an absolute second operand
replaces the first; otherwise a `/` separator is inserted unless the first
operand is empty or already ends with `/`. -/
def osJoin (a b : String) : String :=
  if headIsSlash b then b
  else if a = "" ∨ lastIsSlash a then a ++ b
  else a ++ "/" ++ b

/-- Replace every (non-overlapping, left-to-right) occurrence of `pat`
in the character list, as Python `str.replace` does. The fuel is the
input length, consumed at least one character per step. -/
def replaceAll (pat rep : List Char) : Nat → List Char → List Char
  | _, [] => []
  | 0, l => l
  | fuel + 1, c :: rest =>
    if pat ≠ [] ∧ pat.isPrefixOf (c :: rest) then
      rep ++ replaceAll pat rep fuel ((c :: rest).drop pat.length)
    else
      c :: replaceAll pat rep fuel rest

/-- Python `s.replace(pat, rep)`. -/
def pyReplace (s pat rep : String) : String :=
  String.mk (replaceAll pat.data rep.data s.data.length s.data)

/-- Python `s.endswith(suf)`. -/
def endsWithB (s suf : String) : Bool :=
  suf.data.isSuffixOf s.data

/-- Strict lexicographic order on character lists by code point, the
order Python uses for `str < str`. -/
def clLt : List Char → List Char → Bool
  | _, [] => false
  | [], _ :: _ => true
  | a :: as, b :: bs =>
    decide (a.toNat < b.toNat) || (a.toNat == b.toNat && clLt as bs)

/-- Python string `<`. -/
def strLtB (a b : String) : Bool := clLt a.data b.data

/-- Insert a string into a (sorted) list, keeping ascending order. -/
def insertSorted (x : String) : List String → List String
  | [] => [x]
  | y :: ys => if strLtB y x then y :: insertSorted x ys else x :: y :: ys

/-- Python `sorted` on strings (insertion sort, ascending). -/
def sortStrings : List String → List String
  | [] => []
  | x :: xs => insertSorted x (sortStrings xs)

/-- The shell glob pattern `v????????` used by `find_versions`:
a literal `v` followed by exactly eight characters (glob `?` matches any
character except `/`). -/
def globV8 (n : String) : Bool :=
  match n.data with
  | 'v' :: rest => rest.length == 8 && rest.all (fun c => c ≠ '/')
  | _ => false

/-- ASCII digit test (the regex class `\d`): code point between `'0'` and
`'9'`. -/
def isDigitB (c : Char) : Bool :=
  48 ≤ c.toNat && c.toNat ≤ 57

/-- The regular expression prefix match `re.match(r"v\d8", name)` used by
`identify_dirs`: the name starts with a literal `v` followed by (at least)
eight digits. -/
def vPrefixMatch (n : String) : Bool :=
  match n.data with
  | 'v' :: rest => decide (rest.length ≥ 8) && (rest.take 8).all isDigitB
  | _ => false

/-- Modelled from the spec: the version-name pattern as the specification
states it — a literal `v` followed by exactly eight *digits*. Used only to
compare spec wording against the source's glob pattern. -/
def specV8Digits (n : String) : Bool :=
  match n.data with
  | 'v' :: rest => rest.length == 8 && rest.all isDigitB
  | _ => false

/-- Numeric value of a digit string. -/
def digitsVal (l : List Char) : Nat :=
  l.foldl (fun acc c => acc * 10 + (c.toNat - 48)) 0

/-- Modelled from the spec: `os.path.basename` (text after the last `/`),
used only to state what the spec says `resolveLatest` returns. -/
def pyBasename (s : String) : String :=
  match (splitSeg s.data).getLast? with
  | some seg => String.mk seg
  | none => ""

/-- Association-list lookup for the filesystem. -/
def fsLookup (fs : FS) (c : Comps) : Option Node :=
  match fs with
  | [] => none
  | (k, n) :: rest => if k = c then some n else fsLookup rest c

/-- Node lookup treating the filesystem root `/` as an always-existing
directory. -/
def rootedLookup (fs : FS) (c : Comps) : Option Node :=
  match c with
  | [] => some Node.dir
  | _ => fsLookup fs c

/-- Whether a symlink target string is absolute. -/
def isAbs (t : String) : Bool := headIsSlash t

/-- Canonicalize a path by walking its components and substituting symlink
targets, with fuel bounding the number of symlink traversals (ELOOP).
`done` is the already-canonical prefix, `todo` the remaining components. -/
def canon (fs : FS) : Nat → Comps → Comps → Option Comps
  | fuel, done, todo =>
    match todo with
    | [] => some done
    | n :: rest =>
      match fuel with
      | 0 => none
      | f + 1 =>
        match fsLookup fs (done ++ [n]) with
        | some (Node.symlink t) =>
          if isAbs t then canon fs f [] (splitPath t ++ rest)
          else canon fs f done (splitPath t ++ rest)
        | _ => canon fs f (done ++ [n]) rest

/-- Extra resolution fuel beyond the path's own length (Linux bounds
symlink chains similarly). -/
def fsFuel : Nat := 40

/-- Canonicalize an absolute path given as components, with enough fuel
for the path itself plus a bounded number of symlink substitutions. -/
def canonFull (fs : FS) (c : Comps) : Option Comps :=
  canon fs (c.length + fsFuel) [] c

/-- POSIX `stat`: the node a path finally refers to, following every symlink. -/
def statPath (fs : FS) (p : String) : Option Node := do
  let c ← canonFull fs (splitPath p)
  rootedLookup fs c

/-- POSIX `lstat`: canonical key of a path (parent resolved, final component
kept) together with the node stored there, not following a final symlink. -/
def lstatPath (fs : FS) (p : String) : Option (Comps × Option Node) :=
  match (splitPath p).reverse with
  | [] => none
  | last :: revInit => do
    let pc ← canonFull fs revInit.reverse
    pure (pc ++ [last], fsLookup fs (pc ++ [last]))

/-- Python `os.path.isdir` (follows symlinks, `False` on any error). -/
def pyIsdir (fs : FS) (p : String) : Bool :=
  statPath fs p == some Node.dir

/-- Python `os.path.isfile` (follows symlinks, `False` on any error). -/
def pyIsfile (fs : FS) (p : String) : Bool :=
  match statPath fs p with
  | some (Node.file _) => true
  | _ => false

/-- Python `os.path.exists` (follows symlinks; `False` on broken links/errors). -/
def pyExists (fs : FS) (p : String) : Bool :=
  (statPath fs p).isSome

/-- Python `Path.is_symlink` (does not follow the final component). -/
def pyIsSymlink (fs : FS) (p : String) : Bool :=
  match lstatPath fs p with
  | some (_, some (Node.symlink _)) => true
  | _ => false

/-- Python `Path.readlink().as_posix()`; `none` models the `OSError` raised on a
non-symlink. -/
def pyReadlink (fs : FS) (p : String) : Option String :=
  match lstatPath fs p with
  | some (_, some (Node.symlink t)) => some t
  | _ => none

/-- Python `os.path.getsize` (follows symlinks; `none` models the `OSError`). -/
def pyGetsize (fs : FS) (p : String) : Option Nat :=
  match statPath fs p with
  | some (Node.file bs) => some bs.length
  | _ => none

/-- The `md5` helper of the source: stream the file and digest it. The
digest is modelled collision-free: it is the byte content itself, so
digest equality coincides with content equality. `none` models `IOError`. -/
def md5 (fs : FS) (p : String) : Option (List Nat) :=
  match statPath fs p with
  | some (Node.file bs) => some bs
  | _ => none

/-- Names of the direct children of a canonical directory path. -/
def childName (c : Comps) (k : Comps) : Option String :=
  if k.dropLast = c then k.getLast? else none

/-- All direct child names of canonical path `c` present in `fs`. -/
def childNames (fs : FS) (c : Comps) : List String :=
  fs.filterMap (fun e => childName c e.1)

/-- Python `os.listdir` (follows symlinks; `none` models the `OSError` on a
missing path or non-directory). The model returns names sorted. -/
def pyListdir (fs : FS) (p : String) : Option (List String) := do
  let c ← canonFull fs (splitPath p)
  match rootedLookup fs c with
  | some Node.dir => pure (sortStrings (childNames fs c))
  | _ => none

/-- Remove every entry stored under key `k`. -/
def eraseKey : FS → Comps → FS
  | [], _ => []
  | e :: rest, k => if e.1 = k then eraseKey rest k else e :: eraseKey rest k

/-- Python `os.remove` (resolves the parent, removes a final file or symlink;
`none` models the `OSError` on directories and missing paths). -/
def pyRemove (fs : FS) (p : String) : Option FS :=
  match lstatPath fs p with
  | some (k, some (Node.file _)) => some (eraseKey fs k)
  | some (k, some (Node.symlink _)) => some (eraseKey fs k)
  | _ => none

/-- Python `os.rmdir` (final component must be a real, empty directory — a
symlink to a directory raises `NotADirectoryError`). -/
def pyRmdir (fs : FS) (p : String) : Option FS :=
  match lstatPath fs p with
  | some (k, some Node.dir) =>
    if childNames fs k = [] then some (eraseKey fs k) else none
  | _ => none

/-- Python `os.symlink target link` (fails if the link name already exists —
even as a broken symlink — or if the parent is not a directory). -/
def pySymlink (fs : FS) (target link : String) : Option FS :=
  match (splitPath link).reverse with
  | [] => none
  | last :: revInit => do
    let pc ← canonFull fs revInit.reverse
    match rootedLookup fs pc with
    | some Node.dir =>
      match fsLookup fs (pc ++ [last]) with
      | none => some ((pc ++ [last], Node.symlink target) :: fs)
      | some _ => none
    | _ => none

/-- Python truthiness of `Option Bool` (for `elif dirs_match(...)`:
`None` and `False` are falsy). -/
def truthyOB : Option Bool → Bool
  | some true => true
  | _ => false

/-- Python truthiness of the `ArchiveDir.latest` field (`False` is stored
as `none`; an empty string would also be falsy). -/
def optTruthy : Option String → Bool
  | some s => s ≠ ""
  | none => false

/-- Recursion fuel for directory-tree recursions (`nested_list`,
`os.walk`); bounds tree depth, plenty for any state considered here. -/
def treeFuel : Nat := 100

/-- Function `nested_list(d, remove_base)` from the source: recursively list all
non-directory paths under `d`, sorted. Faithfully, the recursive call
passes no `remove_base` (so only the direct children of `d` have the base
stripped), and stripping uses `str.replace`, removing *every* occurrence
of the base. `none` models an uncaught `OSError`/recursion failure. -/
def nested_list : Nat → FS → String → Option String → Option (List String)
  | 0, _, _, _ => none
  | fuel + 1, fs, d, removeBase => do
    let names ← pyListdir fs d
    let r ← names.foldlM (fun (acc : List String) i => do
        let pth := osJoin d i
        if pyIsdir fs pth then
          let sub ← nested_list fuel fs pth none
          pure (acc ++ sub)
        else
          let pth :=
            match removeBase with
            | some b => if b ≠ "" then pyReplace pth b "" else pth
            | none => pth
          pure (acc ++ [pth])) []
    pure (sortStrings r)

/-- Function `dirs_match(d1, d2, basedir1, basedir2)` from the source.
Result: `Except.error` models an uncaught exception, `Except.ok none`
models the bare `return` (Python `None`) taken when the listings differ,
`Except.ok (some b)` the boolean result. Faithfully, the per-file loop is
`for i in d1:` — it iterates over the *characters* of the string `d1`. -/
def dirs_match (fs : FS) (d1 d2 basedir1 basedir2 : String) :
    Except Unit (Option Bool) :=
  match nested_list treeFuel fs d1 (some basedir1),
        nested_list treeFuel fs d2 (some basedir2) with
  | some l1, some l2 =>
    if l1 ≠ l2 then Except.ok none
    else
      let step := fun (acc : Except Unit Nat) (c : Char) =>
        match acc with
        | Except.error e => Except.error e
        | Except.ok errs =>
          let i1 := osJoin d1 (String.mk [c])
          let i2 := osJoin d2 (String.mk [c])
          if pyIsfile fs i1 then
            match pyGetsize fs i1, pyGetsize fs i2 with
            | some s1, some s2 =>
              if s1 ≠ s2 then Except.ok (errs + 1)
              else
                match md5 fs i1, md5 fs i2 with
                | some m1, some m2 =>
                  if m1 ≠ m2 then Except.ok (errs + 1) else Except.ok errs
                | _, _ => Except.error ()
            | _, _ => Except.error ()
          else Except.ok errs
      match d1.data.foldl step (Except.ok 0) with
      | Except.ok errs => Except.ok (some (errs == 0))
      | Except.error e => Except.error e
  | _, _ => Except.error ()

/-- The file-removal loop of `delete_dir`: `os.remove(f"{dr}/{fname}")`
for each listed name, stopping with `ok = false` at the first uncaught
`OSError` and keeping the mutations performed so far. -/
def removeFiles (fs : FS) (dr : String) : List String → FS × List Act × Bool
  | [] => (fs, [], true)
  | n :: rest =>
    match pyRemove fs (dr ++ "/" ++ n) with
    | none => (fs, [], false)
    | some fs1 =>
      let (fs2, tr, ok) := removeFiles fs1 dr rest
      (fs2, Act.deleteFile (dr ++ "/" ++ n) :: tr, ok)

/-- Function `delete_dir(dr)` from the source: remove every direct entry, then
`os.rmdir` the directory. `ok = false` models an uncaught exception; the
filesystem keeps whatever mutations happened before it. -/
def delete_dir (fs : FS) (dr : String) : FS × List Act × Bool :=
  match pyListdir fs dr with
  | none => (fs, [], false)
  | some names =>
    let (fs1, tr, ok) := removeFiles fs dr names
    if ok then
      match pyRmdir fs1 dr with
      | some fs2 => (fs2, tr ++ [Act.rmdirA dr], true)
      | none => (fs1, tr, false)
    else (fs1, tr, false)

/-- Function `symlink(target, symlink)` from the source (a thin `os.symlink`
wrapper). -/
def symlinkFn (fs : FS) (target link : String) : FS × List Act × Bool :=
  match pySymlink fs target link with
  | some fs1 => (fs1, [Act.symlinkA target link], true)
  | none => (fs, [], false)

/-- Function `find_versions(dr)` from the source: basenames of
`glob.glob(f"{dr}/v????????")`, sorted. Glob matches entries of any type
whose name is `v` plus eight characters; a missing or non-directory `dr`
yields the empty list. -/
def find_versions (fs : FS) (dr : String) : List String :=
  let names :=
    match pyListdir fs dr with
    | some ns => ns
    | none => []
  sortStrings (names.filter globV8)

/-- One `os.walk` level list: `(dirpath, subdir names)` pairs in top-down
depth-first order. `subdirs` contains symlinks to directories (as
`os.walk` reports them) but, like `os.walk` with `followlinks=False`,
recursion only descends into real directories. -/
def walkDirs : Nat → FS → String → List (String × List String)
  | 0, _, _ => []
  | fuel + 1, fs, d =>
    match pyListdir fs d with
    | none => []
    | some names =>
      let subdirs := names.filter (fun n => pyIsdir fs (osJoin d n))
      (d, subdirs) ::
        (subdirs.filter (fun n => !pyIsSymlink fs (osJoin d n))).flatMap
          (fun n => walkDirs fuel fs (osJoin d n))

/-- Function `identify_dirs(d)` from the source: every walked directory having at
least one subdirectory whose name matches `re.match(r"v\d8", ...)`. -/
def identify_dirs (fs : FS) (d : String) : List String :=
  (walkDirs treeFuel fs d).filterMap
    (fun e => if e.2.any vPrefixMatch then some e.1 else none)

/-- The `latest`-reading expression of `ArchiveDir.__init__`:
`readlink().as_posix() if is_symlink() else False`. -/
def readLatest (fs : FS) (dr : String) : Option String :=
  if pyIsSymlink fs (dr ++ "/latest") then pyReadlink fs (dr ++ "/latest")
  else none

/-- The `ArchiveDir` object state after `__init__`. -/
structure ArchiveDir where
  dr : String
  dirExists : Bool
  versions : List String
  latest : Option String
  valid : Bool
  deriving DecidableEq, Repr

/-- Method `ArchiveDir._check_valid` from the source. The result boolean is the
`valid` flag; `Except.error` models the uncaught `IndexError` raised by
`self.versions[-1]` when the version list is empty although a (truthy)
`latest` link was read. -/
def checkValid (fs : FS) (dr : String) (versions : List String)
    (latest : Option String) : Except Unit Bool :=
  let v1 : Bool := pyIsdir fs dr && !versions.isEmpty
  match latest with
  | none => Except.ok false
  | some t =>
    if t = "" then Except.ok false
    else
      match versions.getLast? with
      | none => Except.error ()
      | some m => Except.ok (v1 && (t == m))

/-- Method `ArchiveDir.__init__` from the source (including the `_check_valid`
call, whose possible `IndexError` escapes the constructor). -/
def mkArchiveDir (fs : FS) (dr : String) : Except Unit ArchiveDir :=
  let ex := pyIsdir fs dr
  let vs := find_versions fs dr
  let lat := readLatest fs dr
  match checkValid fs dr vs lat with
  | Except.error e => Except.error e
  | Except.ok v =>
    Except.ok { dr := dr, dirExists := ex, versions := vs, latest := lat, valid := v }

/-- The GWS `latest`-link report block used in the `==` and `>` branches:
`if os.path.exists(link): log readlink(link) else: log absence`. A present
non-symlink `latest` makes `readlink` raise (`ok = false`). -/
def latestLinkReport (fs : FS) (dsDr : String) : List Act × Bool :=
  let lnk := dsDr ++ "/latest"
  if pyExists fs lnk then
    match pyReadlink fs lnk with
    | some _ => ([Act.report "latest-link-points"], true)
    | none => ([], false)
  else ([Act.report "no-latest-link"], true)

/-- The archive `latest` report line of the `==` branch
(`arc_latest_link.readlink()` raises on a non-symlink). -/
def arcLatestReport (fs : FS) (arcDr : String) : List Act × Bool :=
  match pyReadlink fs (arcDr ++ "/latest") with
  | some _ => ([Act.report "arc-latest-points"], true)
  | none => ([], false)

/-- The body of `main`'s per-version loop (lines 160–198 of the source),
for one working version `v` of dataset `gwsDr` against archive dataset
`arcDr` whose `latest` value is `arcLatest`. Log lines are modelled as
`Act.report` actions; `Act.compare` marks an invocation of `dirs_match`. -/
def processVersion (fs : FS) (bd1 bd2 gwsDr arcDr arcLatest v : String) :
    FS × List Act × Bool :=
  let gv := osJoin gwsDr v
  let av := osJoin arcDr v
  if strLtB v arcLatest then
    let (fs1, t1, ok1) := delete_dir fs gv
    if ok1 then
      let (fs2, t2, ok2) := symlinkFn fs1 av gv
      (fs2, t1 ++ t2, ok2)
    else (fs1, t1, false)
  else if v == arcLatest then
    let (fs1, t1, ok1) :=
      if pyIsSymlink fs gv
          && (match pyReadlink fs gv with
              | some t => endsWithB t av
              | none => false) then
        (fs, [Act.report "already-symlinked"], true)
      else
        match dirs_match fs gv av bd1 bd2 with
        | Except.error _ => (fs, [Act.compare gv av], false)
        | Except.ok r =>
          if truthyOB r then
            let (fsa, ta, oka) := delete_dir fs gv
            if oka then
              let (fsb, tb, okb) := symlinkFn fsa av gv
              (fsb, Act.compare gv av :: (ta ++ tb), okb)
            else (fsa, Act.compare gv av :: ta, false)
          else (fs, [Act.compare gv av], true)
    if ok1 then
      let (t2, ok2) := arcLatestReport fs1 arcDr
      if ok2 then
        let (t3, ok3) := latestLinkReport fs1 gwsDr
        (fs1, t1 ++ t2 ++ t3, ok3)
      else (fs1, t1 ++ t2, false)
    else (fs1, t1, false)
  else
    let (t1, ok1) := latestLinkReport fs gwsDr
    (fs, Act.report "newer-than-archive" :: t1, ok1)

/-- The per-dataset loop over `reversed(gws_versions)`, aborting (like an
uncaught exception) as soon as one version's processing fails. -/
def runVersions (bd1 bd2 gwsDr arcDr arcLatest : String) :
    FS → List String → FS × List Act × Bool
  | fs, [] => (fs, [], true)
  | fs, v :: rest =>
    let (fs1, t1, ok1) := processVersion fs bd1 bd2 gwsDr arcDr arcLatest v
    if ok1 then
      let (fs2, t2, ok2) := runVersions bd1 bd2 gwsDr arcDr arcLatest fs1 rest
      (fs2, t1 ++ t2, ok2)
    else (fs1, t1, false)

/-- One iteration of `main`'s dataset loop: build the working version list
and the `ArchiveDir` (at path `d1.replace(bd1, bd2)`), skip an invalid
archive, and otherwise process the versions newest-first. The impossible
valid-but-`latest`-is-`False` combination would be a Python `TypeError`
in the `<` comparison and is modelled as an abort. -/
def runDataset (fs : FS) (bd1 bd2 d1 : String) : FS × List Act × Bool :=
  let gwsVersions := find_versions fs d1
  match mkArchiveDir fs (pyReplace d1 bd1 bd2) with
  | Except.error _ => (fs, [], false)
  | Except.ok arc =>
    if !arc.valid then (fs, [], true)
    else
      match arc.latest with
      | some lat => runVersions bd1 bd2 d1 arc.dr lat fs gwsVersions.reverse
      | none => (fs, [], false)

/-- Loop of `main` over `identify_dirs(bd1)` (the dataset list is computed
once, on the initial state, as in the source). -/
def runDatasets (bd1 bd2 : String) : FS → List String → FS × List Act × Bool
  | fs, [] => (fs, [], true)
  | fs, d :: rest =>
    let (fs1, t1, ok1) := runDataset fs bd1 bd2 d
    if ok1 then
      let (fs2, t2, ok2) := runDatasets bd1 bd2 fs1 rest
      (fs2, t1 ++ t2, ok2)
    else (fs1, t1, false)

/-- Function `main(bd1, bd2)` from the source: require both base directories, then
reconcile every discovered dataset. The returned triple is the final
filesystem, the trace of performed actions, and whether the run finished
without an uncaught exception. -/
def mainRun (fs : FS) (bd1 bd2 : String) : FS × List Act × Bool :=
  if !(pyIsdir fs bd1 && pyIsdir fs bd2) then (fs, [], true)
  else runDatasets bd1 bd2 fs (identify_dirs fs bd1)


/-- Erase several keys in sequence. -/
def eraseKeys (fs : FS) (ks : List Comps) : FS :=
  ks.foldl eraseKey fs

/-- Whether an optional node is a regular file. -/
def isFileOpt : Option Node → Bool
  | some (Node.file _) => true
  | _ => false

/-! ### Concrete filesystem states used to exercise the engine -/

/-- Working version `v20200101` equals archive-latest but its single file
differs from the archive copy in size (2 bytes vs 1 byte); the recursive
base-relative listings coincide. -/
def fsDiverge : FS := [
  (["gws"], Node.dir),
  (["gws", "ds1"], Node.dir),
  (["gws", "ds1", "v20200101"], Node.dir),
  (["gws", "ds1", "v20200101", "data.nc"], Node.file [1, 2]),
  (["arc"], Node.dir),
  (["arc", "ds1"], Node.dir),
  (["arc", "ds1", "v20200101"], Node.dir),
  (["arc", "ds1", "v20200101", "data.nc"], Node.file [1]),
  (["arc", "ds1", "latest"], Node.symlink "v20200101")]

/-- Working version `v20200101` is stale (archive latest is `v20200202`);
identical archived copy present. Used for the two-run experiment. -/
def fsStale : FS := [
  (["gws"], Node.dir),
  (["gws", "ds1"], Node.dir),
  (["gws", "ds1", "v20200101"], Node.dir),
  (["gws", "ds1", "v20200101", "a.nc"], Node.file [1]),
  (["arc"], Node.dir),
  (["arc", "ds1"], Node.dir),
  (["arc", "ds1", "v20200101"], Node.dir),
  (["arc", "ds1", "v20200101", "a.nc"], Node.file [1]),
  (["arc", "ds1", "v20200202"], Node.dir),
  (["arc", "ds1", "v20200202", "b.nc"], Node.file [2]),
  (["arc", "ds1", "latest"], Node.symlink "v20200202")]

/-- Two directories with identical base-relative listings whose single
file `f.nc` differs in size. -/
def fsSizeDiff : FS := [
  (["g1"], Node.dir),
  (["g1", "data"], Node.dir),
  (["g1", "data", "f.nc"], Node.file [7, 7]),
  (["g2"], Node.dir),
  (["g2", "data"], Node.dir),
  (["g2", "data", "f.nc"], Node.file [7])]

/-- Two directories with a file named `w`, a letter occurring in the first
tree's path string but not in the second's; sizes differ. -/
def fsAsym : FS := [
  (["gws1"], Node.dir),
  (["gws1", "d"], Node.dir),
  (["gws1", "d", "w"], Node.file [1]),
  (["arc2"], Node.dir),
  (["arc2", "d"], Node.dir),
  (["arc2", "d", "w"], Node.file [1, 2])]

/-- An archive container with a `latest` symlink but no version
directories at all. -/
def fsNoVersions : FS := [
  (["arc"], Node.dir),
  (["arc", "dsE"], Node.dir),
  (["arc", "dsE", "latest"], Node.symlink "v20200101")]

/-- A dataset root whose only child matches the glob `v????????` without
being `v` + eight digits. -/
def fsGlobOnly : FS := [
  (["r"], Node.dir),
  (["r", "vabcdefgh"], Node.dir),
  (["r", "v2020"], Node.dir),
  (["r", "other"], Node.dir)]

/-- An archive whose `latest` symlink stores a multi-component target
whose basename is the maximum version. -/
def fsDeepTarget : FS := [
  (["deep"], Node.dir),
  (["deep", "ds"], Node.dir),
  (["deep", "ds", "v20200101"], Node.dir),
  (["deep", "ds", "latest"], Node.symlink "x/v20200101")]

/-- The `ArchiveDir` value produced on `fsDeepTarget`. -/
def adDeep : ArchiveDir :=
  { dr := "/deep/ds", dirExists := true, versions := ["v20200101"],
    latest := some "x/v20200101", valid := false }

/-- A well-formed archive dataset: one version, `latest` pointing at it. -/
def fsGood : FS := [
  (["a"], Node.dir),
  (["a", "ds"], Node.dir),
  (["a", "ds", "v20200101"], Node.dir),
  (["a", "ds", "latest"], Node.symlink "v20200101")]

/-- The `ArchiveDir` value produced on `fsGood`. -/
def adGood : ArchiveDir :=
  { dr := "/a/ds", dirExists := true, versions := ["v20200101"],
    latest := some "v20200101", valid := true }

/-- A working dataset holding one flat stale version directory. -/
def fsWork : FS := [
  (["gws"], Node.dir),
  (["gws", "ds"], Node.dir),
  (["gws", "ds", "v20200101"], Node.dir),
  (["gws", "ds", "v20200101", "a.nc"], Node.file [5])]

/-! ### Order lemmas for the Python string order -/

theorem clLt_cons_iff (a b : Char) (as bs : List Char) :
    clLt (a :: as) (b :: bs) = true ↔
      a.toNat < b.toNat ∨ (a.toNat = b.toNat ∧ clLt as bs = true) := by
  simp [clLt, Bool.or_eq_true, Bool.and_eq_true, decide_eq_true_iff, beq_iff_eq]

theorem clLt_irrefl : ∀ l : List Char, clLt l l = false := by
  intro l
  induction l with
  | nil => rfl
  | cons a as ih => simp [clLt, ih]

theorem clLt_asym : ∀ {x y : List Char}, clLt x y = true → clLt y x = false := by
  intro x
  induction x with
  | nil =>
    intro y h
    cases y with
    | nil => simp [clLt] at h
    | cons b bs => simp [clLt]
  | cons a as ih =>
    intro y h
    cases y with
    | nil => simp [clLt] at h
    | cons b bs =>
      rw [clLt_cons_iff] at h
      rw [Bool.eq_false_iff]
      intro hc
      rw [clLt_cons_iff] at hc
      rcases h with h1 | ⟨heq, hrec⟩
      · rcases hc with hc1 | ⟨hceq, _⟩
        · omega
        · omega
      · rcases hc with hc1 | ⟨hceq, hcrec⟩
        · omega
        · rw [ih hrec] at hcrec
          exact Bool.false_ne_true hcrec

theorem clLt_step : ∀ {c a b : List Char},
    clLt c a = true → clLt c b = true ∨ clLt b a = true := by
  intro c
  induction c with
  | nil =>
    intro a b h
    cases a with
    | nil => simp [clLt] at h
    | cons a0 as =>
      cases b with
      | nil => right; simp [clLt]
      | cons b0 bs => left; simp [clLt]
  | cons c0 cs ih =>
    intro a b h
    cases a with
    | nil => simp [clLt] at h
    | cons a0 as =>
      cases b with
      | nil => right; simp [clLt]
      | cons b0 bs =>
        rw [clLt_cons_iff] at h
        rcases h with hlt | ⟨heq, hrec⟩
        · rcases Nat.lt_or_ge c0.toNat b0.toNat with hb | hb
          · left; rw [clLt_cons_iff]; exact Or.inl hb
          · right; rw [clLt_cons_iff]; exact Or.inl (by omega)
        · rcases Nat.lt_trichotomy b0.toNat c0.toNat with hb | hb | hb
          · right; rw [clLt_cons_iff]; exact Or.inl (by omega)
          · rcases @ih as bs hrec with h1 | h1
            · left; rw [clLt_cons_iff]; exact Or.inr ⟨by omega, h1⟩
            · right; rw [clLt_cons_iff]; exact Or.inr ⟨by omega, h1⟩
          · left; rw [clLt_cons_iff]; exact Or.inl hb

theorem strLtB_irrefl (a : String) : strLtB a a = false := clLt_irrefl a.data

theorem strLtB_asym {a b : String} (h : strLtB a b = true) : strLtB b a = false :=
  clLt_asym h

theorem strLtB_step {c a b : String} (h : strLtB c a = true) :
    strLtB c b = true ∨ strLtB b a = true :=
  clLt_step h

/-! ### Insertion sort lemmas -/

theorem insertSorted_perm (x : String) :
    ∀ l : List String, (insertSorted x l).Perm (x :: l) := by
  intro l
  induction l with
  | nil => simp [insertSorted]
  | cons y ys ih =>
    by_cases h : strLtB y x = true
    · simp only [insertSorted, h, if_true]
      exact ((ih.cons y).trans (List.Perm.swap x y ys))
    · simp only [insertSorted]
      rw [if_neg h]

theorem sortStrings_perm : ∀ l : List String, (sortStrings l).Perm l := by
  intro l
  induction l with
  | nil => simp [sortStrings]
  | cons x xs ih =>
    exact (insertSorted_perm x (sortStrings xs)).trans (ih.cons x)

theorem mem_sortStrings {a : String} {l : List String} :
    a ∈ sortStrings l ↔ a ∈ l :=
  (sortStrings_perm l).mem_iff

theorem nodup_sortStrings {l : List String} (h : l.Nodup) :
    (sortStrings l).Nodup :=
  ((sortStrings_perm l).nodup_iff).mpr h

theorem insertSorted_pairwise (x : String) {l : List String}
    (h : l.Pairwise (fun a b => strLtB b a = false)) :
    (insertSorted x l).Pairwise (fun a b => strLtB b a = false) := by
  induction l with
  | nil => simp [insertSorted]
  | cons y ys ih =>
    rcases List.pairwise_cons.mp h with ⟨hy, hys⟩
    by_cases hyx : strLtB y x = true
    · simp only [insertSorted, hyx, if_true]
      refine List.pairwise_cons.mpr ⟨?_, ih hys⟩
      intro z hz
      have hz' : z = x ∨ z ∈ ys := by
        have := (insertSorted_perm x ys).mem_iff.mp hz
        simpa using this
      rcases hz' with rfl | hz'
      · exact strLtB_asym hyx
      · exact hy z hz'
    · have hyx' : strLtB y x = false := by simpa using hyx
      simp only [insertSorted, hyx, if_false]
      refine List.pairwise_cons.mpr ⟨?_, h⟩
      intro z hz
      rcases List.mem_cons.mp hz with rfl | hz'
      · exact hyx'
      · by_contra hzx
        have hzx' : strLtB z x = true := by simpa using hzx
        rcases @strLtB_step z x y hzx' with h1 | h1
        · rw [hy z hz'] at h1; exact Bool.false_ne_true h1
        · rw [hyx'] at h1; exact Bool.false_ne_true h1

theorem sortStrings_pairwise (l : List String) :
    (sortStrings l).Pairwise (fun a b => strLtB b a = false) := by
  induction l with
  | nil => simp [sortStrings]
  | cons x xs ih => exact insertSorted_pairwise x ih

/-! ### Digit-string order lemmas -/

theorem digitsVal_foldl (l : List Char) :
    ∀ acc : Nat,
      l.foldl (fun acc c => acc * 10 + (c.toNat - 48)) acc =
        acc * 10 ^ l.length + digitsVal l := by
  induction l with
  | nil => intro acc; simp [digitsVal]
  | cons c cs ih =>
    intro acc
    have h2 : digitsVal (c :: cs) = (c.toNat - 48) * 10 ^ cs.length + digitsVal cs := by
      show cs.foldl (fun acc c => acc * 10 + (c.toNat - 48)) (0 * 10 + (c.toNat - 48)) =
        (c.toNat - 48) * 10 ^ cs.length + digitsVal cs
      rw [ih]
      ring
    simp only [List.foldl_cons, List.length_cons]
    rw [ih, h2]
    ring

theorem digitsVal_cons (c : Char) (cs : List Char) :
    digitsVal (c :: cs) = (c.toNat - 48) * 10 ^ cs.length + digitsVal cs := by
  show cs.foldl (fun acc c => acc * 10 + (c.toNat - 48)) (0 * 10 + (c.toNat - 48)) =
    (c.toNat - 48) * 10 ^ cs.length + digitsVal cs
  rw [digitsVal_foldl]
  ring

theorem digitsVal_lt (l : List Char) (h : ∀ c ∈ l, isDigitB c = true) :
    digitsVal l < 10 ^ l.length := by
  induction l with
  | nil => simp [digitsVal]
  | cons c cs ih =>
    have hc : isDigitB c = true := h c (List.mem_cons_self c cs)
    have hc' : c.toNat - 48 ≤ 9 := by
      simp only [isDigitB, Bool.and_eq_true, decide_eq_true_iff] at hc
      omega
    have hcs := ih (fun d hd => h d (List.mem_cons_of_mem c hd))
    rw [digitsVal_cons, List.length_cons, pow_succ]
    calc (c.toNat - 48) * 10 ^ cs.length + digitsVal cs
        < (c.toNat - 48) * 10 ^ cs.length + 10 ^ cs.length := by omega
      _ = (c.toNat - 48 + 1) * 10 ^ cs.length := by ring
      _ ≤ 10 * 10 ^ cs.length := by
          have h10 : c.toNat - 48 + 1 ≤ 10 := by omega
          exact Nat.mul_le_mul_right _ h10
      _ = 10 ^ cs.length * 10 := by ring

theorem clLt_digits_false (as : List Char) :
    ∀ bs : List Char, as.length = bs.length →
      (∀ c ∈ as, isDigitB c = true) → (∀ c ∈ bs, isDigitB c = true) →
      clLt as bs = false → digitsVal bs ≤ digitsVal as := by
  induction as with
  | nil =>
    intro bs hlen _ _ _
    have hb0 : bs = [] := List.eq_nil_of_length_eq_zero hlen.symm
    subst hb0
    simp
  | cons a as' ih =>
    intro bs hlen ha hb hf
    cases bs with
    | nil => simp at hlen
    | cons b bs' =>
      have hlen' : as'.length = bs'.length := by simpa using hlen
      have hnot : ¬ (a.toNat < b.toNat ∨ (a.toNat = b.toNat ∧ clLt as' bs' = true)) := by
        intro hcon
        rw [← clLt_cons_iff] at hcon
        rw [hf] at hcon
        exact Bool.false_ne_true hcon
      push_neg at hnot
      rcases Nat.lt_or_ge a.toNat b.toNat with hab | hab
      · omega
      · rw [digitsVal_cons, digitsVal_cons, hlen']
        rcases Nat.eq_or_lt_of_le hab with heq | hlt
        · have hrec : clLt as' bs' = false := by
            rcases Bool.eq_false_or_eq_true (clLt as' bs') with h0 | h0
            · exact absurd h0 (hnot.2 heq.symm)
            · exact h0
          have hih := ih bs' hlen'
            (fun c hc => ha c (List.mem_cons_of_mem a hc))
            (fun c hc => hb c (List.mem_cons_of_mem b hc)) hrec
          have hba : b.toNat - 48 = a.toNat - 48 := by omega
          rw [hba]
          omega
        · have hbv := digitsVal_lt bs' (fun c hc => hb c (List.mem_cons_of_mem b hc))
          have h48 : 48 ≤ b.toNat := by
            have hd := hb b (List.mem_cons_self b bs')
            simp only [isDigitB, Bool.and_eq_true, decide_eq_true_iff] at hd
            omega
          have hstep : (b.toNat - 48) + 1 ≤ a.toNat - 48 := by omega
          have hle : (b.toNat - 48) * 10 ^ bs'.length + digitsVal bs'
              < (a.toNat - 48) * 10 ^ bs'.length := by
            calc (b.toNat - 48) * 10 ^ bs'.length + digitsVal bs'
                < (b.toNat - 48) * 10 ^ bs'.length + 10 ^ bs'.length := by omega
              _ = ((b.toNat - 48) + 1) * 10 ^ bs'.length := by ring
              _ ≤ (a.toNat - 48) * 10 ^ bs'.length := Nat.mul_le_mul_right _ hstep
          omega

theorem clLt_digits_true (as : List Char) :
    ∀ bs : List Char, as.length = bs.length →
      (∀ c ∈ as, isDigitB c = true) → (∀ c ∈ bs, isDigitB c = true) →
      clLt as bs = true → digitsVal as < digitsVal bs := by
  induction as with
  | nil =>
    intro bs hlen _ _ ht
    have hb0 : bs = [] := List.eq_nil_of_length_eq_zero hlen.symm
    subst hb0
    simp [clLt] at ht
  | cons a as' ih =>
    intro bs hlen ha hb ht
    cases bs with
    | nil => simp at hlen
    | cons b bs' =>
      have hlen' : as'.length = bs'.length := by simpa using hlen
      rw [clLt_cons_iff] at ht
      rw [digitsVal_cons, digitsVal_cons, hlen']
      rcases ht with hlt | ⟨heq, hrec⟩
      · have hav := digitsVal_lt as' (fun c hc => ha c (List.mem_cons_of_mem a hc))
        have h48 : 48 ≤ a.toNat := by
          have hd := ha a (List.mem_cons_self a as')
          simp only [isDigitB, Bool.and_eq_true, decide_eq_true_iff] at hd
          omega
        have hstep : (a.toNat - 48) + 1 ≤ b.toNat - 48 := by omega
        have hkey : (a.toNat - 48) * 10 ^ bs'.length + digitsVal as'
            < (b.toNat - 48) * 10 ^ bs'.length := by
          calc (a.toNat - 48) * 10 ^ bs'.length + digitsVal as'
              < (a.toNat - 48) * 10 ^ bs'.length + 10 ^ bs'.length := by
                rw [← hlen']; omega
            _ = ((a.toNat - 48) + 1) * 10 ^ bs'.length := by ring
            _ ≤ (b.toNat - 48) * 10 ^ bs'.length := Nat.mul_le_mul_right _ hstep
        omega
      · have hih := ih bs' hlen'
          (fun c hc => ha c (List.mem_cons_of_mem a hc))
          (fun c hc => hb c (List.mem_cons_of_mem b hc)) hrec
        have heq' : a.toNat - 48 = b.toNat - 48 := by omega
        rw [heq']
        omega

/-! ### Path splitting lemmas -/

theorem splitSeg_ne_nil (l : List Char) : splitSeg l ≠ [] := by
  cases l with
  | nil => simp [splitSeg]
  | cons c rest =>
    by_cases h : c = '/'
    · simp [splitSeg, h]
    · simp only [splitSeg, h, if_false]
      cases hs : splitSeg rest with
      | nil => simp
      | cons s ss => simp

theorem splitSeg_append_slash (xs ys : List Char) :
    splitSeg (xs ++ '/' :: ys) = splitSeg xs ++ splitSeg ys := by
  induction xs with
  | nil => simp [splitSeg]
  | cons c rest ih =>
    by_cases h : c = '/'
    · simp [splitSeg, h, ih]
    · simp only [List.cons_append, splitSeg, h, if_false]
      simp only [List.append_eq]
      rw [ih]
      cases hs : splitSeg rest with
      | nil => exact absurd hs (splitSeg_ne_nil rest)
      | cons s ss => simp [hs]

theorem splitSeg_no_slash (l : List Char) (h : ∀ c ∈ l, c ≠ '/') :
    splitSeg l = [l] := by
  induction l with
  | nil => rfl
  | cons c rest ih =>
    have hc : c ≠ '/' := h c (List.mem_cons_self c rest)
    have hr := ih (fun d hd => h d (List.mem_cons_of_mem c hd))
    simp [splitSeg, hc, hr]

theorem string_data_append (a b : String) : (a ++ b).data = a.data ++ b.data := rfl

theorem splitPath_append_single (s n : String) (hne : n ≠ "")
    (hsl : ∀ c ∈ n.data, c ≠ '/') :
    splitPath (s ++ "/" ++ n) = splitPath s ++ [n] := by
  have hdata : (s ++ "/" ++ n).data = s.data ++ '/' :: n.data := by
    rw [string_data_append, string_data_append]
    simp
  have hnd : n.data ≠ [] := by
    intro h0
    apply hne
    cases n with
    | mk d => simp at h0; simp [h0]
  rw [splitPath, hdata, splitSeg_append_slash, splitSeg_no_slash n.data hsl]
  rw [List.filter_append, List.map_append]
  congr 1
  simp [hnd]

/-! ### Filesystem model lemmas -/

theorem fsLookup_eraseKey (fs : FS) (k p : Comps) :
    fsLookup (eraseKey fs k) p = if p = k then none else fsLookup fs p := by
  induction fs with
  | nil => simp [eraseKey, fsLookup]
  | cons e rest ih =>
    obtain ⟨ek, en⟩ := e
    by_cases hek : ek = k
    · rw [eraseKey, if_pos hek, ih, fsLookup]
      by_cases hpk : p = k
      · simp [hpk]
      · rw [if_neg hpk, if_neg hpk, if_neg (by rw [hek]; exact fun h0 => hpk h0.symm)]
    · rw [eraseKey, if_neg hek, fsLookup, fsLookup]
      by_cases hpe : ek = p
      · subst hpe
        rw [if_pos rfl, if_pos rfl, if_neg (fun h0 => hek h0)]
      · rw [if_neg hpe, if_neg hpe, ih]

theorem mem_eraseKey (fs : FS) (k : Comps) (e : Comps × Node) :
    e ∈ eraseKey fs k ↔ e ∈ fs ∧ e.1 ≠ k := by
  induction fs with
  | nil => simp [eraseKey]
  | cons x rest ih =>
    by_cases h : x.1 = k
    · rw [eraseKey, if_pos h, ih]
      constructor
      · rintro ⟨he, hk⟩
        exact ⟨List.mem_cons_of_mem x he, hk⟩
      · rintro ⟨he, hk⟩
        rcases List.mem_cons.mp he with rfl | he'
        · exact absurd h hk
        · exact ⟨he', hk⟩
    · rw [eraseKey, if_neg h]
      constructor
      · intro he
        rcases List.mem_cons.mp he with rfl | he'
        · exact ⟨List.mem_cons_self _ _, h⟩
        · rcases ih.mp he' with ⟨h1, h2⟩
          exact ⟨List.mem_cons_of_mem x h1, h2⟩
      · rintro ⟨he, hk⟩
        rcases List.mem_cons.mp he with rfl | he'
        · exact List.mem_cons_self _ _
        · exact List.mem_cons_of_mem x (ih.mpr ⟨he', hk⟩)

theorem eraseKeys_cons (fs : FS) (k : Comps) (ks : List Comps) :
    eraseKeys fs (k :: ks) = eraseKeys (eraseKey fs k) ks := rfl

theorem fsLookup_eraseKeys (ks : List Comps) :
    ∀ (fs : FS) (p : Comps),
      fsLookup (eraseKeys fs ks) p = if p ∈ ks then none else fsLookup fs p := by
  induction ks with
  | nil => intro fs p; simp [eraseKeys]
  | cons k ks' ih =>
    intro fs p
    rw [eraseKeys_cons, ih, fsLookup_eraseKey]
    by_cases h1 : p ∈ ks'
    · simp [h1]
    · by_cases h2 : p = k
      · simp [h1, h2]
      · simp [h1, h2]

theorem mem_eraseKeys (ks : List Comps) :
    ∀ (fs : FS) (e : Comps × Node),
      e ∈ eraseKeys fs ks ↔ e ∈ fs ∧ e.1 ∉ ks := by
  induction ks with
  | nil => intro fs e; simp [eraseKeys]
  | cons k ks' ih =>
    intro fs e
    rw [eraseKeys_cons, ih, mem_eraseKey]
    constructor
    · rintro ⟨⟨he, h1⟩, h2⟩
      exact ⟨he, by simp [h1, h2]⟩
    · rintro ⟨he, h⟩
      simp only [List.mem_cons, not_or] at h
      exact ⟨⟨he, h.1⟩, h.2⟩

theorem canon_of_dirs (fs : FS) :
    ∀ (todo done : Comps) (fuel : Nat), todo.length ≤ fuel →
      (∀ i, 0 < i → i ≤ todo.length →
        fsLookup fs (done ++ todo.take i) = some Node.dir) →
      canon fs fuel done todo = some (done ++ todo) := by
  intro todo
  induction todo with
  | nil => intro done fuel _ _; simp [canon]
  | cons n rest ih =>
    intro done fuel hfuel h
    cases fuel with
    | zero => simp at hfuel
    | succ f =>
      have h1 : fsLookup fs (done ++ [n]) = some Node.dir := by
        have := h 1 (by omega) (by simp)
        simpa using this
      rw [canon, h1]
      have h2 := ih (done ++ [n]) f (by simpa using hfuel) (fun i hi hle => by
        have := h (i + 1) (by omega) (by simpa using hle)
        simpa [List.append_assoc] using this)
      rw [h2]
      simp

theorem canonFull_of_dirs (fs : FS) (c : Comps)
    (h : ∀ i, 0 < i → i ≤ c.length →
      fsLookup fs (c.take i) = some Node.dir) :
    canonFull fs c = some c := by
  rw [canonFull]
  have := canon_of_dirs fs c [] (c.length + fsFuel) (by omega)
    (fun i hi hle => by simpa using h i hi hle)
  simpa using this

theorem childName_eq_some {c k : Comps} {n : String} :
    childName c k = some n ↔ k = c ++ [n] := by
  constructor
  · intro h
    rw [childName] at h
    by_cases hd : k.dropLast = c
    · rw [if_pos hd] at h
      rcases List.eq_nil_or_concat k with rfl | ⟨L, b, rfl⟩
      · simp at h
      · simp only [List.concat_eq_append, List.getLast?_concat, Option.some.injEq] at h
        simp only [List.concat_eq_append, List.dropLast_concat] at hd
        rw [hd, h]
        simp
    · rw [if_neg hd] at h
      exact absurd h (by simp)
  · rintro rfl
    simp [childName, List.dropLast_concat, List.getLast?_concat]

theorem mem_childNames {fs : FS} {c : Comps} {n : String} :
    n ∈ childNames fs c ↔ ∃ nd, (c ++ [n], nd) ∈ fs := by
  simp only [childNames, List.mem_filterMap]
  constructor
  · rintro ⟨⟨k, nd⟩, he, hcn⟩
    have hk : k = c ++ [n] := childName_eq_some.mp hcn
    subst hk
    exact ⟨nd, he⟩
  · rintro ⟨nd, hmem⟩
    exact ⟨(c ++ [n], nd), hmem, childName_eq_some.mpr rfl⟩

theorem pyListdir_of_dirs {fs : FS} {p : String} {c : Comps}
    (hsp : splitPath p = c) (hne : c ≠ [])
    (hdirs : ∀ i, 0 < i → i ≤ c.length → fsLookup fs (c.take i) = some Node.dir) :
    pyListdir fs p = some (sortStrings (childNames fs c)) := by
  have hc : canonFull fs c = some c := canonFull_of_dirs fs c hdirs
  have hl : rootedLookup fs c = some Node.dir := by
    cases c with
    | nil => exact absurd rfl hne
    | cons a as =>
      show fsLookup fs (a :: as) = some Node.dir
      have := hdirs (a :: as).length (by simp) (le_refl _)
      simpa using this
  rw [pyListdir, hsp, hc]
  simp only [Option.bind_eq_bind, Option.some_bind]
  rw [hl]
  rfl

theorem lstatPath_concat {fs : FS} {p : String} {c : Comps} {n : String}
    (hsp : splitPath p = c ++ [n])
    (hdirs : ∀ i, 0 < i → i ≤ c.length → fsLookup fs (c.take i) = some Node.dir) :
    lstatPath fs p = some (c ++ [n], fsLookup fs (c ++ [n])) := by
  have hc : canonFull fs c = some c := canonFull_of_dirs fs c hdirs
  rw [lstatPath, hsp]
  simp only [List.reverse_append, List.reverse_cons, List.reverse_nil,
    List.nil_append, List.singleton_append, List.reverse_reverse]
  rw [hc]
  rfl

theorem pyRemove_file {fs : FS} {dr n : String} {c : Comps} {bs : List Nat}
    (hsp : splitPath dr = c) (hn : n ≠ "") (hnsl : ∀ ch ∈ n.data, ch ≠ '/')
    (hdirs : ∀ i, 0 < i → i ≤ c.length → fsLookup fs (c.take i) = some Node.dir)
    (hf : fsLookup fs (c ++ [n]) = some (Node.file bs)) :
    pyRemove fs (dr ++ "/" ++ n) = some (eraseKey fs (c ++ [n])) := by
  have hsp2 : splitPath (dr ++ "/" ++ n) = c ++ [n] := by
    rw [splitPath_append_single _ _ hn hnsl, hsp]
  rw [pyRemove, lstatPath_concat hsp2 hdirs, hf]

theorem removeFiles_spec {dr : String} {c : Comps} (hsp : splitPath dr = c) :
    ∀ (names : List String) (fs : FS),
      (∀ i, 0 < i → i ≤ c.length → fsLookup fs (c.take i) = some Node.dir) →
      (∀ n ∈ names, n ≠ "" ∧ ∀ ch ∈ n.data, ch ≠ '/') →
      (∀ n ∈ names, isFileOpt (fsLookup fs (c ++ [n])) = true) →
      names.Nodup →
      removeFiles fs dr names =
        (eraseKeys fs (names.map (fun n => c ++ [n])),
         names.map (fun n => Act.deleteFile (dr ++ "/" ++ n)), true) := by
  intro names
  induction names with
  | nil =>
    intro fs _ _ _ _
    simp [removeFiles, eraseKeys]
  | cons n rest ih =>
    intro fs hdirs hnames hfiles hnd
    have hn := hnames n (List.mem_cons_self n rest)
    have hfn : isFileOpt (fsLookup fs (c ++ [n])) = true :=
      hfiles n (List.mem_cons_self n rest)
    obtain ⟨bs, hbs⟩ : ∃ bs, fsLookup fs (c ++ [n]) = some (Node.file bs) := by
      rcases hlk : fsLookup fs (c ++ [n]) with _ | nd
      · rw [hlk] at hfn; simp [isFileOpt] at hfn
      · cases nd with
        | file bs => exact ⟨bs, rfl⟩
        | dir => rw [hlk] at hfn; simp [isFileOpt] at hfn
        | symlink t => rw [hlk] at hfn; simp [isFileOpt] at hfn
    have hrem := pyRemove_file hsp hn.1 hn.2 hdirs hbs
    have hdirs1 : ∀ i, 0 < i → i ≤ c.length →
        fsLookup (eraseKey fs (c ++ [n])) (c.take i) = some Node.dir := by
      intro i hi hle
      rw [fsLookup_eraseKey]
      have hne : c.take i ≠ c ++ [n] := by
        intro h0
        have := congrArg List.length h0
        simp only [List.length_take, List.length_append, List.length_cons,
          List.length_nil] at this
        omega
      rw [if_neg hne]
      exact hdirs i hi hle
    have hfiles1 : ∀ m ∈ rest,
        isFileOpt (fsLookup (eraseKey fs (c ++ [n])) (c ++ [m])) = true := by
      intro m hm
      rw [fsLookup_eraseKey]
      have hmn : m ≠ n := by
        intro h0
        subst h0
        exact (List.nodup_cons.mp hnd).1 hm
      have hne : c ++ [m] ≠ c ++ [n] := by
        intro h0
        simp only [List.append_cancel_left_eq, List.cons.injEq] at h0
        exact hmn h0.1
      rw [if_neg hne]
      exact hfiles m (List.mem_cons_of_mem n hm)
    have hih := ih (eraseKey fs (c ++ [n])) hdirs1
      (fun m hm => hnames m (List.mem_cons_of_mem n hm)) hfiles1
      (List.nodup_cons.mp hnd).2
    rw [removeFiles, hrem]
    simp only []
    rw [hih]
    simp [eraseKeys_cons]

theorem delete_dir_spec {fs : FS} {dr : String} {c : Comps}
    (hsp : splitPath dr = c) (hne : c ≠ [])
    (hdirs : ∀ i, 0 < i → i ≤ c.length → fsLookup fs (c.take i) = some Node.dir)
    (hnames : ∀ n ∈ childNames fs c, n ≠ "" ∧ ∀ ch ∈ n.data, ch ≠ '/')
    (hfiles : ∀ n ∈ childNames fs c, isFileOpt (fsLookup fs (c ++ [n])) = true)
    (hnd : (childNames fs c).Nodup) :
    delete_dir fs dr =
      (eraseKey
        (eraseKeys fs
          ((sortStrings (childNames fs c)).map (fun n => c ++ [n]))) c,
       (sortStrings (childNames fs c)).map
           (fun n => Act.deleteFile (dr ++ "/" ++ n))
         ++ [Act.rmdirA dr],
       true) := by
  have hld := pyListdir_of_dirs hsp hne hdirs
  have hrf := removeFiles_spec hsp (sortStrings (childNames fs c)) fs hdirs
    (fun n hn => hnames n (mem_sortStrings.mp hn))
    (fun n hn => hfiles n (mem_sortStrings.mp hn))
    (nodup_sortStrings hnd)
  obtain ⟨pre, lastn, hc⟩ : ∃ p l, c = p ++ [l] := by
    rcases List.eq_nil_or_concat c with h0 | ⟨L, b, h0⟩
    · exact absurd h0 hne
    · exact ⟨L, b, by simpa using h0⟩
  have hclen : c.length = pre.length + 1 := by rw [hc]; simp
  have hkeylen : ∀ k ∈ (sortStrings (childNames fs c)).map (fun n => c ++ [n]),
      k.length = c.length + 1 := by
    intro k hk
    rcases List.mem_map.mp hk with ⟨n, _, rfl⟩
    simp
  have hfs1lookup : ∀ p : Comps, p.length ≤ c.length →
      fsLookup (eraseKeys fs
        ((sortStrings (childNames fs c)).map (fun n => c ++ [n]))) p =
      fsLookup fs p := by
    intro p hp
    rw [fsLookup_eraseKeys]
    rw [if_neg]
    intro hmem
    have := hkeylen p hmem
    omega
  have hdirs1 : ∀ i, 0 < i → i ≤ pre.length →
      fsLookup (eraseKeys fs
        ((sortStrings (childNames fs c)).map (fun n => c ++ [n])))
        (pre.take i) = some Node.dir := by
    intro i hi hle
    have htk : c.take i = pre.take i := by
      rw [hc, List.take_append_eq_append_take]
      have : i - pre.length = 0 := by omega
      rw [this]
      simp
    rw [hfs1lookup (pre.take i) (by simp [List.length_take]; omega), ← htk]
    exact hdirs i hi (by rw [hc]; simp; omega)
  have hlkc : fsLookup (eraseKeys fs
      ((sortStrings (childNames fs c)).map (fun n => c ++ [n]))) c =
      some Node.dir := by
    rw [hfs1lookup c (le_refl _)]
    have := hdirs c.length (by rw [hc]; simp) (le_refl _)
    simpa using this
  have hstat : lstatPath (eraseKeys fs
      ((sortStrings (childNames fs c)).map (fun n => c ++ [n]))) dr =
      some (c, some Node.dir) := by
    have h1 := @lstatPath_concat (eraseKeys fs
        ((sortStrings (childNames fs c)).map (fun n => c ++ [n])))
      dr pre lastn (by rw [hsp, hc]) hdirs1
    rw [← hc] at h1
    rw [h1, hlkc]
  have hcn1 : childNames (eraseKeys fs
      ((sortStrings (childNames fs c)).map (fun n => c ++ [n]))) c = [] := by
    rw [childNames, List.filterMap_eq_nil_iff]
    intro e he
    rcases hcne : childName c e.1 with _ | m
    · rfl
    · exfalso
      have hek : e.1 = c ++ [m] := childName_eq_some.mp hcne
      rcases (mem_eraseKeys _ _ _).mp he with ⟨hef, hnk⟩
      apply hnk
      rw [hek]
      apply List.mem_map.mpr
      refine ⟨m, ?_, rfl⟩
      apply mem_sortStrings.mpr
      exact mem_childNames.mpr ⟨e.2, by rw [← hek]; exact hef⟩
  have hrd : pyRmdir (eraseKeys fs
      ((sortStrings (childNames fs c)).map (fun n => c ++ [n]))) dr =
      some (eraseKey (eraseKeys fs
        ((sortStrings (childNames fs c)).map (fun n => c ++ [n]))) c) := by
    rw [pyRmdir, hstat]
    simp only []
    rw [hcn1]
    simp
  rw [delete_dir, hld]
  simp only []
  rw [hrf]
  simp only [if_true]
  rw [hrd]

theorem pySymlink_fresh {fs : FS} {target link : String} {pre : Comps}
    {lastn : String}
    (hsp : splitPath link = pre ++ [lastn])
    (hdirs : ∀ i, 0 < i → i ≤ pre.length → fsLookup fs (pre.take i) = some Node.dir)
    (hparent : rootedLookup fs pre = some Node.dir)
    (hfree : fsLookup fs (pre ++ [lastn]) = none) :
    pySymlink fs target link = some ((pre ++ [lastn], Node.symlink target) :: fs) := by
  rw [pySymlink, hsp]
  simp only [List.reverse_append, List.reverse_cons, List.reverse_nil,
    List.nil_append, List.singleton_append, List.reverse_reverse]
  have hc : canonFull fs pre = some pre := canonFull_of_dirs fs pre hdirs
  rw [hc]
  simp only [Option.bind_eq_bind, Option.some_bind]
  rw [hparent, hfree]

/-- C5: for every filesystem state in which the working version `v` is a
flat real directory (direct children all regular files, parents real
directories) and `v` is strictly below the archive's latest value in the
Python string order, one engine step deletes the version's direct file
entries, then the directory, then creates the symbolic link
`W/v -> A/v` — and the emitted trace consists of exactly those actions,
so no content comparison (`Act.compare`) happens for that version. -/
theorem processVersion_stale
    (fs : FS) (bd1 bd2 gwsDr arcDr arcLatest v : String) (c : Comps)
    (hsp : splitPath (osJoin gwsDr v) = c) (hne : c ≠ [])
    (hlt : strLtB v arcLatest = true)
    (hdirs : ∀ i, 0 < i → i ≤ c.length → fsLookup fs (c.take i) = some Node.dir)
    (hnames : ∀ n ∈ childNames fs c, n ≠ "" ∧ ∀ ch ∈ n.data, ch ≠ '/')
    (hfiles : ∀ n ∈ childNames fs c, isFileOpt (fsLookup fs (c ++ [n])) = true)
    (hnd : (childNames fs c).Nodup) :
    processVersion fs bd1 bd2 gwsDr arcDr arcLatest v =
      ((c, Node.symlink (osJoin arcDr v)) ::
         eraseKey
           (eraseKeys fs
             ((sortStrings (childNames fs c)).map (fun n => c ++ [n]))) c,
       (sortStrings (childNames fs c)).map
           (fun n => Act.deleteFile (osJoin gwsDr v ++ "/" ++ n))
         ++ [Act.rmdirA (osJoin gwsDr v),
             Act.symlinkA (osJoin arcDr v) (osJoin gwsDr v)],
       true) := by
  obtain ⟨pre, lastn, hc⟩ : ∃ p l, c = p ++ [l] := by
    rcases List.eq_nil_or_concat c with h0 | ⟨L, b, h0⟩
    · exact absurd h0 hne
    · exact ⟨L, b, by simpa using h0⟩
  have hclen : c.length = pre.length + 1 := by rw [hc]; simp
  have hdd := delete_dir_spec hsp hne hdirs hnames hfiles hnd
  have hkeylen : ∀ k ∈ (sortStrings (childNames fs c)).map (fun n => c ++ [n]),
      k.length = c.length + 1 := by
    intro k hk
    rcases List.mem_map.mp hk with ⟨n, _, rfl⟩
    simp
  have hfs2lookup : ∀ p : Comps, p.length ≤ pre.length →
      fsLookup (eraseKey (eraseKeys fs
        ((sortStrings (childNames fs c)).map (fun n => c ++ [n]))) c) p =
      fsLookup fs p := by
    intro p hp
    rw [fsLookup_eraseKey, if_neg (by
      intro h0
      have := congrArg List.length h0
      omega)]
    rw [fsLookup_eraseKeys, if_neg (by
      intro hmem
      have := hkeylen p hmem
      omega)]
  have hdirs2 : ∀ i, 0 < i → i ≤ pre.length →
      fsLookup (eraseKey (eraseKeys fs
        ((sortStrings (childNames fs c)).map (fun n => c ++ [n]))) c)
        (pre.take i) = some Node.dir := by
    intro i hi hle
    have htk : c.take i = pre.take i := by
      rw [hc, List.take_append_eq_append_take]
      have h0 : i - pre.length = 0 := by omega
      rw [h0]
      simp
    rw [hfs2lookup (pre.take i) (by rw [List.length_take]; omega), ← htk]
    exact hdirs i hi (by omega)
  have hparent : rootedLookup (eraseKey (eraseKeys fs
      ((sortStrings (childNames fs c)).map (fun n => c ++ [n]))) c) pre =
      some Node.dir := by
    cases hp : pre with
    | nil => rfl
    | cons a as =>
      show fsLookup _ (a :: as) = some Node.dir
      rw [← hp, hfs2lookup pre (le_refl _)]
      have htk : c.take pre.length = pre := by
        rw [hc]
        exact List.take_left pre [lastn]
      rw [← htk]
      apply hdirs
      · rw [hp]; simp
      · omega
  have hfree : fsLookup (eraseKey (eraseKeys fs
      ((sortStrings (childNames fs c)).map (fun n => c ++ [n]))) c)
      (pre ++ [lastn]) = none := by
    rw [← hc, fsLookup_eraseKey, if_pos rfl]
  have hsyml := @pySymlink_fresh _ (osJoin arcDr v) _ pre lastn
    (by rw [hsp, hc]) hdirs2 hparent hfree
  rw [← hc] at hsyml
  rw [processVersion]
  simp only [hlt, if_true]
  rw [hdd]
  simp only []
  rw [symlinkFn, hsyml]
  simp [List.append_assoc]

theorem latestLinkReport_reports (fs : FS) (d : String) :
    ∀ a ∈ (latestLinkReport fs d).1, ∃ s, a = Act.report s := by
  intro a ha
  rw [latestLinkReport] at ha
  by_cases h : pyExists fs (d ++ "/latest") = true
  · rw [if_pos h] at ha
    rcases hr : pyReadlink fs (d ++ "/latest") with _ | t
    · rw [hr] at ha
      simp at ha
    · rw [hr] at ha
      simp only [List.mem_singleton] at ha
      exact ⟨_, ha⟩
  · rw [if_neg h] at ha
    simp only [List.mem_singleton] at ha
    exact ⟨_, ha⟩

/-- C6: for every filesystem state and working version strictly greater
than the archive's latest value, the engine's per-version step leaves the
filesystem unchanged and emits only report actions (no deletion, no
symlink creation). -/
theorem processVersion_newer
    (fs : FS) (bd1 bd2 gwsDr arcDr arcLatest v : String)
    (hgt : strLtB arcLatest v = true) :
    (processVersion fs bd1 bd2 gwsDr arcDr arcLatest v).1 = fs ∧
    (∀ a ∈ (processVersion fs bd1 bd2 gwsDr arcDr arcLatest v).2.1,
      ∃ s, a = Act.report s) := by
  have hlt : strLtB v arcLatest = false := strLtB_asym hgt
  have hne : (v == arcLatest) = false := by
    rw [beq_eq_false_iff_ne]
    intro h0
    subst h0
    rw [strLtB_irrefl] at hgt
    exact Bool.false_ne_true hgt
  rw [processVersion]
  simp only [hlt, hne, Bool.false_eq_true, if_false]
  rcases hrep : latestLinkReport fs gwsDr with ⟨t1, ok1⟩
  simp only []
  constructor
  · trivial
  · intro a ha
    simp only [List.mem_cons] at ha
    rcases ha with rfl | ha
    · exact ⟨_, rfl⟩
    · have := latestLinkReport_reports fs gwsDr a
      rw [hrep] at this
      exact this ha

/-! ### `ArchiveDir` and `find_versions` lemmas -/

theorem pyListdir_none_of_not_isdir {fs : FS} {p : String}
    (h : pyIsdir fs p = false) : pyListdir fs p = none := by
  rw [pyIsdir] at h
  rw [pyListdir]
  rcases hc : canonFull fs (splitPath p) with _ | c
  · rfl
  · simp only [Option.bind_eq_bind, Option.some_bind]
    rcases hl : rootedLookup fs c with _ | nd
    · rfl
    · cases nd with
      | file bs => rfl
      | symlink t => rfl
      | dir =>
        exfalso
        rw [statPath, hc] at h
        simp only [Option.bind_eq_bind, Option.some_bind] at h
        rw [hl] at h
        simp at h

theorem find_versions_globV8 {fs : FS} {dr n : String}
    (h : n ∈ find_versions fs dr) : globV8 n = true := by
  rw [find_versions] at h
  have h2 := mem_sortStrings.mp h
  exact (List.mem_filter.mp h2).2

theorem specV8_decomp {a : String} (h : specV8Digits a = true) :
    ∃ as : List Char,
      a.data = 'v' :: as ∧ as.length = 8 ∧ ∀ ch ∈ as, isDigitB ch = true := by
  rw [specV8Digits] at h
  split at h
  · rename_i rest heq
    refine ⟨rest, heq, ?_, ?_⟩
    · simp only [Bool.and_eq_true, beq_iff_eq] at h
      exact h.1
    · simp only [Bool.and_eq_true, List.all_eq_true] at h
      exact fun ch hch => h.2 ch hch
  · simp at h

theorem globV8_no_slash {n : String} (h : globV8 n = true) : '/' ∉ n.data := by
  rw [globV8] at h
  split at h
  · rename_i rest heq
    rw [heq]
    simp only [Bool.and_eq_true, List.all_eq_true, decide_eq_true_iff] at h
    intro hmem
    rcases List.mem_cons.mp hmem with h0 | h0
    · exact absurd h0.symm (by decide)
    · exact (h.2 '/' h0) rfl
  · simp at h

theorem strLt_digits_iff {a b : String} (ha : specV8Digits a = true)
    (hb : specV8Digits b = true) :
    (strLtB a b = true ↔
      digitsVal (a.data.drop 1) < digitsVal (b.data.drop 1)) := by
  obtain ⟨as, hda, hla, hdiga⟩ := specV8_decomp ha
  obtain ⟨bs, hdb, hlb, hdigb⟩ := specV8_decomp hb
  rw [strLtB, hda, hdb]
  have hcons : clLt ('v' :: as) ('v' :: bs) = clLt as bs := by
    simp [clLt]
  rw [hcons]
  simp only [List.drop_succ_cons, List.drop_zero]
  constructor
  · intro h
    exact clLt_digits_true as bs (by omega) hdiga hdigb h
  · intro h
    rcases Bool.eq_false_or_eq_true (clLt as bs) with h0 | h0
    · exact h0
    · have := clLt_digits_false as bs (by omega) hdiga hdigb h0
      omega

theorem pyReadlink_of_isSymlink {fs : FS} {p : String}
    (h : pyIsSymlink fs p = true) : ∃ t, pyReadlink fs p = some t := by
  rw [pyIsSymlink] at h
  rw [pyReadlink]
  rcases hs : lstatPath fs p with _ | ⟨k, nd⟩
  · rw [hs] at h; simp at h
  · rw [hs] at h
    rcases nd with _ | nd
    · simp at h
    · cases nd with
      | file bs => simp at h
      | dir => simp at h
      | symlink t => exact ⟨t, rfl⟩

theorem mkArchiveDir_ok_inv {fs : FS} {dr : String} {ad : ArchiveDir}
    (hmk : mkArchiveDir fs dr = Except.ok ad) :
    ad.dr = dr ∧ ad.dirExists = pyIsdir fs dr ∧
    ad.versions = find_versions fs dr ∧ ad.latest = readLatest fs dr ∧
    checkValid fs dr (find_versions fs dr) (readLatest fs dr) =
      Except.ok ad.valid := by
  simp only [mkArchiveDir] at hmk
  rcases hcv : checkValid fs dr (find_versions fs dr) (readLatest fs dr)
    with e | v
  · rw [hcv] at hmk
    simp at hmk
  · rw [hcv] at hmk
    simp only [Except.ok.injEq] at hmk
    subst hmk
    exact ⟨rfl, rfl, rfl, rfl, rfl⟩

theorem checkValid_none (fs : FS) (dr : String) (vs : List String) :
    checkValid fs dr vs none = Except.ok false := rfl

/-- C4 (amended): `ArchiveDir` construction fails (the `IndexError` of
`self.versions[-1]`) exactly when a truthy `latest` link is read while the
version list is empty; in every other combination it succeeds and the
validity flag equals the conjunction: root is a directory AND at least one
version AND truthy `latest` AND the `latest` link's *full target string*
(not its basename) equals the maximum version. -/
theorem archive_validity_cases (fs : FS) (dr : String) :
    ((mkArchiveDir fs dr = Except.error ()) ↔
      (optTruthy (readLatest fs dr) = true ∧ find_versions fs dr = [])) ∧
    (∀ ad, mkArchiveDir fs dr = Except.ok ad →
      ad.valid = (pyIsdir fs dr && !(find_versions fs dr).isEmpty &&
        optTruthy (readLatest fs dr) &&
        ((readLatest fs dr).getD "" ==
          (find_versions fs dr).getLast?.getD ""))) := by
  rcases hlat : readLatest fs dr with _ | t
  · have hmk : mkArchiveDir fs dr =
        Except.ok ⟨dr, pyIsdir fs dr, find_versions fs dr, none, false⟩ := by
      simp only [mkArchiveDir, hlat, checkValid]
    constructor
    · rw [hmk]
      simp [optTruthy]
    · intro ad had
      rw [hmk] at had
      simp only [Except.ok.injEq] at had
      subst had
      simp [optTruthy]
  · by_cases ht : t = ""
    · subst ht
      have hmk : mkArchiveDir fs dr =
          Except.ok ⟨dr, pyIsdir fs dr, find_versions fs dr, some "", false⟩ := by
        simp only [mkArchiveDir, hlat, checkValid]
        simp
      constructor
      · rw [hmk]
        simp [optTruthy]
      · intro ad had
        rw [hmk] at had
        simp only [Except.ok.injEq] at had
        subst had
        simp [optTruthy]
    · rcases hg : (find_versions fs dr).getLast? with _ | m
      · have hmk : mkArchiveDir fs dr = Except.error () := by
          simp only [mkArchiveDir, hlat, checkValid, if_neg ht, hg]
        constructor
        · rw [hmk]
          simp only [true_iff]
          refine ⟨by simp [optTruthy, ht], ?_⟩
          exact List.getLast?_eq_none_iff.mp hg
        · intro ad had
          rw [hmk] at had
          simp at had
      · have hmk : mkArchiveDir fs dr =
            Except.ok ⟨dr, pyIsdir fs dr, find_versions fs dr, some t,
              (pyIsdir fs dr && !(find_versions fs dr).isEmpty) && (t == m)⟩ := by
          simp only [mkArchiveDir, hlat, checkValid, if_neg ht, hg]
        constructor
        · rw [hmk]
          constructor
          · intro h0
            simp at h0
          · rintro ⟨-, hnil⟩
            rw [hnil] at hg
            simp at hg
        · intro ad had
          rw [hmk] at had
          simp only [Except.ok.injEq] at had
          subst had
          simp only [hlat, hg, optTruthy, Option.getD_some]
          have htr : (decide ¬t = "" : Bool) = true := by simp [ht]
          simp [ht, Bool.and_assoc]

/-- C8 (amended): for every constructed `ArchiveDir`, the `latest` value
is present exactly when the `latest` entry is a symbolic link, and when
present it is the link's raw target string as returned by `readlink` (the
full target, which per `archive_latest_keeps_full_target` need not be the
basename the claim describes). -/
theorem archive_latest_chars (fs : FS) (dr : String) (ad : ArchiveDir)
    (hmk : mkArchiveDir fs dr = Except.ok ad) :
    (ad.latest.isSome = pyIsSymlink fs (dr ++ "/latest")) ∧
    (∀ t, ad.latest = some t → pyReadlink fs (dr ++ "/latest") = some t) := by
  obtain ⟨-, -, -, hlat, -⟩ := mkArchiveDir_ok_inv hmk
  rw [hlat, readLatest]
  by_cases hs : pyIsSymlink fs (dr ++ "/latest") = true
  · rw [if_pos hs, hs]
    obtain ⟨t, ht⟩ := pyReadlink_of_isSymlink hs
    rw [ht]
    exact ⟨rfl, fun u hu => hu⟩
  · have hs' : pyIsSymlink fs (dr ++ "/latest") = false := by
      simpa using hs
    rw [if_neg hs, hs']
    exact ⟨rfl, fun u hu => by simp at hu⟩

/-- C10: every `ArchiveDir` constructed with `valid = true` has a
non-empty version list whose last element the stored `latest` value equals
exactly as a string; that string matches the glob `v????????` and contains
no `/`, so the right-hand side of the engine's version comparisons is a
bare version basename — never `False`, never a multi-component path. -/
theorem valid_archive_inv (fs : FS) (dr : String) (ad : ArchiveDir)
    (hmk : mkArchiveDir fs dr = Except.ok ad) (hv : ad.valid = true) :
    ad.versions ≠ [] ∧
    ∃ m, ad.versions.getLast? = some m ∧ ad.latest = some m ∧
      globV8 m = true ∧ '/' ∉ m.data := by
  obtain ⟨-, -, hvers, hlat, hcv⟩ := mkArchiveDir_ok_inv hmk
  rw [hv] at hcv
  simp only [checkValid] at hcv
  split at hcv
  · simp at hcv
  · rename_i t heqlat
    split at hcv
    · simp at hcv
    · rename_i ht
      split at hcv
      · simp at hcv
      · rename_i m hg
        simp only [Except.ok.injEq] at hcv
        have hb : (pyIsdir fs dr && !(find_versions fs dr).isEmpty) = true ∧
            (t == m) = true := by
          simpa [Bool.and_eq_true] using hcv
        have htm : t = m := by simpa using hb.2
        have hmem : m ∈ find_versions fs dr := by
          apply List.mem_of_mem_getLast?
          simp [hg]
        have hglob : globV8 m = true := find_versions_globV8 hmem
        have hnonempty : find_versions fs dr ≠ [] := by
          intro h0
          rw [h0] at hg
          simp at hg
        refine ⟨by rw [hvers]; exact hnonempty, m, ?_, ?_, hglob,
          globV8_no_slash hglob⟩
        · rw [hvers]
          exact hg
        · rw [hlat, heqlat, htm]

/-- Helper to discharge bounded-quantifier hypotheses at concrete lengths. -/
theorem ball_le_three {P : Nat → Prop} (h1 : P 1) (h2 : P 2) (h3 : P 3) :
    ∀ i, 0 < i → i ≤ 3 → P i := by
  intro i hi hle
  interval_cases i
  · exact h1
  · exact h2
  · exact h3

/-- C7 (amended): `find_versions` returns, in ascending Python-string
order, exactly the child names matching the glob `v????????` (eight
arbitrary non-`/` characters, not necessarily digits); it is empty when
the root is not a directory; and on names that do match the spec's
`v` + 8-digit pattern, the string order coincides with numeric order of
the digit strings. -/
theorem find_versions_props (fs : FS) (dr : String) :
    (find_versions fs dr).Pairwise (fun a b => strLtB b a = false) ∧
    (∀ n ∈ find_versions fs dr, globV8 n = true) ∧
    (pyIsdir fs dr = false → find_versions fs dr = []) ∧
    (∀ a b : String, specV8Digits a = true → specV8Digits b = true →
      (strLtB a b = true ↔
        digitsVal (a.data.drop 1) < digitsVal (b.data.drop 1))) := by
  refine ⟨?_, ?_, ?_, ?_⟩
  · rw [find_versions]
    exact sortStrings_pairwise _
  · intro n hn
    exact find_versions_globV8 hn
  · intro h
    rw [find_versions, pyListdir_none_of_not_isdir h]
    rfl
  · intro a b ha hb
    exact strLt_digits_iff ha hb

/-- C7 witness: instantiating the amended characterization on a concrete
missing root. -/
theorem find_versions_props_witness :
    find_versions fsNoVersions "/missing" = [] :=
  (find_versions_props fsNoVersions "/missing").2.2.1 (by decide)

/-- C7 counterexample: the claim says `find_versions` keeps only names
matching `v` + eight *digits*, but the glob `v????????` also keeps
`vabcdefgh`. -/
theorem find_versions_keeps_non_digit_name :
    find_versions fsGlobOnly "/r" = ["vabcdefgh"] ∧
    specV8Digits "vabcdefgh" = false ∧
    globV8 "vabcdefgh" = true := by decide

/-- C1 (code bug): a working version equal to archive-latest whose file
differs in size from the archive copy (2 bytes vs 1), with identical
base-relative listings, is nevertheless deleted and symlinked by the
engine — the no-loss guarantee is violated because `dirs_match` iterates
over the characters of `d1` instead of the listed files. -/
theorem noloss_violated_on_divergent_latest :
    pyGetsize fsDiverge "/gws/ds1/v20200101/data.nc" = some 2 ∧
    pyGetsize fsDiverge "/arc/ds1/v20200101/data.nc" = some 1 ∧
    nested_list treeFuel fsDiverge "/gws/ds1/v20200101" (some "/gws") =
      nested_list treeFuel fsDiverge "/arc/ds1/v20200101" (some "/arc") ∧
    readLatest fsDiverge "/arc/ds1" = some "v20200101" ∧
    Act.rmdirA "/gws/ds1/v20200101" ∈ (mainRun fsDiverge "/gws" "/arc").2.1 ∧
    Act.symlinkA "/arc/ds1/v20200101" "/gws/ds1/v20200101" ∈
      (mainRun fsDiverge "/gws" "/arc").2.1 := by decide

/-- C2 (code bug): after a clean first run replaces the stale working
version with a symlink, a second run is not a no-op: its stale branch
deletes *through* the symlink (removing the archived file) and then
crashes when `os.rmdir` hits the symlink. -/
theorem second_run_performs_mutations :
    (mainRun fsStale "/gws" "/arc").2.2 = true ∧
    fsLookup (mainRun fsStale "/gws" "/arc").1 ["gws", "ds1", "v20200101"] =
      some (Node.symlink "/arc/ds1/v20200101") ∧
    Act.deleteFile "/gws/ds1/v20200101/a.nc" ∈
      (mainRun (mainRun fsStale "/gws" "/arc").1 "/gws" "/arc").2.1 ∧
    fsLookup (mainRun (mainRun fsStale "/gws" "/arc").1 "/gws" "/arc").1
      ["arc", "ds1", "v20200101", "a.nc"] = none ∧
    (mainRun (mainRun fsStale "/gws" "/arc").1 "/gws" "/arc").2.2 = false := by
  decide

/-- C3 (code bug): two directories with identical base-relative listings
whose single file differs in size still compare as *equal*, because the
per-file loop `for i in d1:` ranges over the characters of the path
string `d1`, none of which names a file here. -/
theorem dirs_match_true_despite_size_mismatch :
    dirs_match fsSizeDiff "/g1/data" "/g2/data" "/g1" "/g2" =
      Except.ok (some true) ∧
    nested_list treeFuel fsSizeDiff "/g1/data" (some "/g1") =
      nested_list treeFuel fsSizeDiff "/g2/data" (some "/g2") ∧
    pyGetsize fsSizeDiff "/g1/data/f.nc" = some 2 ∧
    pyGetsize fsSizeDiff "/g2/data/f.nc" = some 1 := by decide

/-- C9 (code bug): `dirs_match` is not symmetric — the character `'w'`
occurs in the path string `/gws1/d` (so the file `w` is size-checked in
that direction) but no character of `/arc2/d` names a file, so the
reversed comparison reports equality. -/
theorem dirs_match_asymmetric :
    dirs_match fsAsym "/gws1/d" "/arc2/d" "/gws1" "/arc2" =
      Except.ok (some false) ∧
    dirs_match fsAsym "/arc2/d" "/gws1/d" "/arc2" "/gws1" =
      Except.ok (some true) := by decide

/-- C4 counterexample: on an existing archive container with a `latest`
symlink but no version directory, `_check_valid` raises `IndexError`
(modelled as `Except.error`) instead of computing a validity flag — the
claim's "computed without failure in every combination" fails. -/
theorem checkValid_raises_with_latest_no_versions :
    pyIsdir fsNoVersions "/arc/dsE" = true ∧
    pyIsSymlink fsNoVersions "/arc/dsE/latest" = true ∧
    find_versions fsNoVersions "/arc/dsE" = [] ∧
    mkArchiveDir fsNoVersions "/arc/dsE" = Except.error () := by decide

/-- C4 witness: the amended characterization instantiated on a concrete
well-formed archive. -/
theorem archive_validity_cases_witness :
    adGood.valid = (pyIsdir fsGood "/a/ds" &&
      !(find_versions fsGood "/a/ds").isEmpty &&
      optTruthy (readLatest fsGood "/a/ds") &&
      ((readLatest fsGood "/a/ds").getD "" ==
        (find_versions fsGood "/a/ds").getLast?.getD "")) :=
  (archive_validity_cases fsGood "/a/ds").2 adGood (by decide)

/-- C8 counterexample: with a multi-component `latest` target the stored
`latest` value is the full target string, not its basename as the claim
states. -/
theorem archive_latest_keeps_full_target :
    mkArchiveDir fsDeepTarget "/deep/ds" = Except.ok adDeep ∧
    adDeep.latest = some "x/v20200101" ∧
    pyBasename "x/v20200101" = "v20200101" ∧
    adDeep.latest ≠ some (pyBasename "x/v20200101") := by decide

/-- C8 witness: the amended characterization instantiated on a concrete
archive. -/
theorem archive_latest_chars_witness :
    adGood.latest.isSome = pyIsSymlink fsGood ("/a/ds" ++ "/latest") :=
  (archive_latest_chars fsGood "/a/ds" adGood (by decide)).1

/-- C5 witness: one stale flat working version is deleted (file, then
directory) and replaced by a symlink into the archive. -/
theorem processVersion_stale_witness :
    processVersion fsWork "/gws" "/arc" "/gws/ds" "/arc/ds" "v20200202"
        "v20200101" =
      ((["gws", "ds", "v20200101"],
          Node.symlink (osJoin "/arc/ds" "v20200101")) ::
        eraseKey
          (eraseKeys fsWork
            ((sortStrings (childNames fsWork ["gws", "ds", "v20200101"])).map
              (fun n => ["gws", "ds", "v20200101"] ++ [n])))
          ["gws", "ds", "v20200101"],
       (sortStrings (childNames fsWork ["gws", "ds", "v20200101"])).map
           (fun n => Act.deleteFile (osJoin "/gws/ds" "v20200101" ++ "/" ++ n))
         ++ [Act.rmdirA (osJoin "/gws/ds" "v20200101"),
             Act.symlinkA (osJoin "/arc/ds" "v20200101")
               (osJoin "/gws/ds" "v20200101")],
       true) :=
  processVersion_stale fsWork "/gws" "/arc" "/gws/ds" "/arc/ds" "v20200202"
    "v20200101" ["gws", "ds", "v20200101"] (by decide) (by decide) (by decide)
    (ball_le_three (by decide) (by decide) (by decide))
    (by decide) (by decide) (by decide)

/-- C6 witness: a newer-than-archive version leaves the filesystem
untouched. -/
theorem processVersion_newer_witness :
    (processVersion fsWork "/gws" "/arc" "/gws/ds" "/arc/ds" "v20200101"
      "v20200303").1 = fsWork :=
  (processVersion_newer fsWork "/gws" "/arc" "/gws/ds" "/arc/ds" "v20200101"
    "v20200303" (by decide)).1

/-- C10 witness: the invariant instantiated on a concrete valid archive. -/
theorem valid_archive_inv_witness :
    adGood.versions ≠ [] :=
  (valid_archive_inv fsGood "/a/ds" adGood (by decide) (by decide)).1
